import Mathlib

/-!
# Verification of the NSRR-tools preprocessing core

A shallow embedding, in Lean 4, of the channel-resolution, modality-grouping,
signal-conditioning and annotation-synchronization core of the NSRR-tools
repository (`src/nsrr_tools/core/annotation_processor.py`,
`channel_mapper.py`, `modality_detector.py`, `signal_processor.py`),
together with theorems settling the specification's claims about it.

Modelling conventions:
* Python floats are embedded as exact rationals (`ℚ`); where IEEE special
  values matter (the normalization step works with `np.nan`/`np.inf`),
  signal samples live in the inductive type `FVal` which adjoins `nan`,
  `inf` and `ninf` to `ℚ` with the IEEE propagation rules of the
  operations actually used.
* Python `int(x)` is truncation toward zero (`pyInt`); `np.ceil` composed
  with `int(...)` is `Int.ceil`.
* Python dicts are embedded as association lists in insertion order with
  unique keys; a dict comprehension whose keys collide keeps the last
  occurrence.
* Theorems about stage events assume non-negative `start`/`duration`
  (negative values would trigger numpy's negative-index wrap-around in
  slice assignment, which is outside the time model of the spec).
-/

namespace NSRR

/-- Python `int(x)` on a float: truncation toward zero. -/
def pyInt (x : ℚ) : ℤ := if 0 ≤ x then ⌊x⌋ else ⌈x⌉

/-- `AnnotationProcessor.EPOCH_DURATION = 30` (seconds). -/
def EPOCH_DURATION : ℚ := 30

/-- A stage event supplied by a dataset adapter: a dictionary with keys
`start`, `duration`, `stage` (`_stages_to_array` reads exactly these). -/
structure StageEvent where
  start : ℚ
  duration : ℚ
  stage : ℤ
deriving DecidableEq

/-- One step of a stable insertion sort on the key `start`: the new element
is placed before the first element whose key is not smaller, hence after
every earlier element with an equal key. -/
def insertEvent (e : StageEvent) : List StageEvent → List StageEvent
  | [] => [e]
  | f :: rest => if f.start < e.start then f :: insertEvent e rest else e :: f :: rest

/-- `sorted(stages, key=lambda x: x.get('start', 0))` — Python's `sorted` is
a stable sort by `start`; a stable sort by a fixed key is unique, so this
insertion sort produces the same list. -/
def sortStages (stages : List StageEvent) : List StageEvent :=
  stages.foldr insertEvent []

/-- `start_epoch = int(start_time / self.EPOCH_DURATION)`. -/
def startEpoch (e : StageEvent) : ℤ := pyInt (e.start / EPOCH_DURATION)

/-- `num_stage_epochs = int(np.ceil(duration / self.EPOCH_DURATION))`
(`np.ceil` yields an integral float, so `int` of it is exactly `⌈·⌉`). -/
def numStageEpochs (e : StageEvent) : ℤ := ⌈e.duration / EPOCH_DURATION⌉

/-- `end_epoch = start_epoch + num_stage_epochs`. -/
def endEpoch (e : StageEvent) : ℤ := startEpoch e + numStageEpochs e

/-- The slice assignment `stage_array[start_epoch:min(end_epoch, n)] = stage_value`
(together with the `start_epoch < num_epochs` guard), as a pointwise update:
index `i` of the array receives the stage value iff
`start_epoch ≤ i < end_epoch` (the `min` clip is implicit since `i < n`). -/
def writeStage (arr : List ℤ) (e : StageEvent) : List ℤ :=
  (List.range arr.length).map fun (i : ℕ) =>
    if startEpoch e ≤ (i : ℤ) ∧ (i : ℤ) < endEpoch e then e.stage else arr.getD i 0

/-- The `.get` defaults of `_stages_to_array`:
`start=0`, `duration=EPOCH_DURATION`, `stage=-1` (never used on a
nonempty list; placeholder for `getLastD`). -/
def defaultEvent : StageEvent := ⟨0, EPOCH_DURATION, -1⟩

/-- `AnnotationProcessor._stages_to_array`: sort the events by `start`;
the epoch count comes from the **last event in sorted order**
(`stages_sorted[-1]`): `num_epochs = int(np.ceil((last_start + last_duration) / 30))`;
initialize to `-1` and write each event's range in sorted order. -/
def stagesToArray (stages : List StageEvent) : List ℤ :=
  if stages.isEmpty then []
  else
    let sorted := sortStages stages
    let lastE := sorted.getLastD defaultEvent
    let n : ℕ := (⌈(lastE.start + lastE.duration) / EPOCH_DURATION⌉).toNat
    sorted.foldl writeStage (List.replicate n (-1))

/-- `_validate_synchronization`: `difference = |signal_duration - 30 * len(stage_array)|`,
`tolerance = 2 * EPOCH_DURATION`, `needs_adjustment = difference > tolerance`. -/
def needsAdjustment (arr : List ℤ) (d : ℚ) : Bool :=
  decide (2 * EPOCH_DURATION < |d - EPOCH_DURATION * arr.length|)

/-- `signal_epochs = int(signal_duration / self.EPOCH_DURATION)`. -/
def signalEpochs (d : ℚ) : ℤ := pyInt (d / EPOCH_DURATION)

/-- `_adjust_synchronization`: equal → unchanged; annotations longer →
truncate to `signal_epochs`; shorter → right-pad with `-1`. -/
def adjustSynchronization (arr : List ℤ) (d : ℚ) : List ℤ :=
  let se := (signalEpochs d).toNat
  if se = arr.length then arr
  else if se < arr.length then arr.take se
  else arr ++ List.replicate (se - arr.length) (-1)

/-- The synchronization step of `process_annotations`: adjust exactly when
`_validate_synchronization` reports `needs_adjustment`. -/
def synchronize (arr : List ℤ) (d : ℚ) : List ℤ :=
  if needsAdjustment arr d then adjustSynchronization arr d else arr

/-! ## ChannelMapper (`channel_mapper.py`) -/

/-- Python `str.lower()` (ASCII case folding, as used by the alias tables). -/
def strLower (s : String) : String := ⟨s.data.map Char.toLower⟩

/-- The static configuration consumed by `ChannelMapper.__init__`:
`channel_alternatives` (canonical name → ordered alias list) and
`channel_priority` (canonical name → priority search order), both
insertion-ordered dicts with unique keys. -/
structure MapperConfig where
  channel_alternatives : List (String × List String)
  channel_priority : List (String × List String)

/-- `available_lower = {ch.lower(): ch for ch in available_channels}` followed by
`available_lower[key]`: a dict comprehension keeps the **last** occurrence on
key collision, so the lookup returns the last channel whose lowercase form is
`key` (`none` when the key is absent). -/
def availLookup (labels : List String) (key : String) : Option String :=
  (labels.filter (fun ch => strLower ch == key)).getLast?

/-- `search_order = self.channel_priority.get(standard_name, alternatives)`. -/
def searchOrder (cfg : MapperConfig) (std : String) (alts : List String) : List String :=
  match cfg.channel_priority.lookup std with
  | some p => p
  | none => alts

/-- The inner loop of `detect_channels_from_list`: the first alias in the
search order whose lowercase form is a key of `available_lower` yields
`available_lower[alt_name.lower()]`. -/
def detectOne (labels : List String) : List String → Option String
  | [] => none
  | a :: rest =>
    match availLookup labels (strLower a) with
    | some found => some found
    | none => detectOne labels rest

/-- `ChannelMapper.detect_channels_from_list`: iterate the alternatives dict in
order; `if found_name:` is Python truthiness, so an empty-string match is not
recorded. -/
def detect_channels_from_list (cfg : MapperConfig) (labels : List String) :
    List (String × String) :=
  cfg.channel_alternatives.filterMap fun p =>
    (detectOne labels (searchOrder cfg p.1 p.2)).bind fun found =>
      if found = "" then none else some (p.1, found)

/-! ## ModalityDetector (`modality_detector.py`) -/

/-- The `modalities` table of `modality_groups.yaml`: an ordered dict
family name → member canonical-channel list (only the `channels` field is
used by the functions modelled here). -/
structure ModalityConfig where
  modalities : List (String × List String)

/-- The inner loop of `group_channels_by_modality`: the first family (in
table order) whose `channels` list contains the canonical name (`break`),
`none` when no family matches. -/
def familyOf (mc : ModalityConfig) (std : String) : Option String :=
  (mc.modalities.find? (fun p => p.2.contains std)).map Prod.fst

/-- The keys of `group_channels_by_modality(mapping)[f]` (with
`.get(f, {})` semantics: an absent/empty family behaves as the empty dict):
the canonical names of the mapping, in insertion order, whose family is `f`. -/
def groupedKeys (mc : ModalityConfig) (mapping : List (String × String)) (f : String) :
    List String :=
  (mapping.map Prod.fst).filter (fun s => familyOf mc s == some f)

/-! ## SignalProcessor (`signal_processor.py`) -/

/-- The four SleepFM output groups of `_apply_sleepfm_limits`. -/
inductive SGroup where
  | BAS | EKG | EMG | RESP
deriving DecidableEq

/-- One entry of the `sleepfm_modalities` config table:
`max_channels` and `priority_order`. -/
structure GroupSpec where
  max_channels : ℕ
  priority_order : List String

/-- The part of the `modality_groups` argument that `_apply_sleepfm_limits`
inspects: key membership of the five family sub-dicts. -/
structure ModalityGroups where
  eeg : List String
  eog : List String
  ecg : List String
  emg : List String
  resp : List String

/-- The `modality_groups` value actually passed by `process_edf`:
`group_channels_by_modality(channel_mapping)`, restricted to its key sets. -/
def mgOf (mc : ModalityConfig) (mapping : List (String × String)) : ModalityGroups :=
  ⟨groupedKeys mc mapping "EEG", groupedKeys mc mapping "EOG",
   groupedKeys mc mapping "ECG", groupedKeys mc mapping "EMG",
   groupedKeys mc mapping "RESP"⟩

/-- The `if/elif` chain of `_apply_sleepfm_limits` that assigns a canonical
channel to a SleepFM group: EEG or EOG → BAS, ECG → EKG, EMG → EMG,
RESP → RESP, otherwise no group at all. -/
def sleepfmGroupOf (mg : ModalityGroups) (std : String) : Option SGroup :=
  if std ∈ mg.eeg ∨ std ∈ mg.eog then some .BAS
  else if std ∈ mg.ecg then some .EKG
  else if std ∈ mg.emg then some .EMG
  else if std ∈ mg.resp then some .RESP
  else none

/-- `sleepfm_groups[g]` after the first loop of `_apply_sleepfm_limits`:
the canonical names of the mapping, in insertion order, assigned to `g`. -/
def groupChannels (mg : ModalityGroups) (mapping : List (String × String)) (g : SGroup) :
    List String :=
  (mapping.map Prod.fst).filter (fun s => sleepfmGroupOf mg s == some g)

/-- The prioritization of `_apply_sleepfm_limits`: channels named in
`priority_order` and present, in priority order, followed by the present
channels not in that prefix, in group order. -/
def prioritize (priority channels : List String) : List String :=
  let pr := priority.filter (fun p => channels.contains p)
  pr ++ channels.filter (fun ch => !(pr.contains ch))

/-- Per-group cap enforcement: `if len(channels) > max_channels:` reorder by
priority and keep the first `max_channels`; otherwise keep the group as is. -/
def selectGroup (spec : GroupSpec) (channels : List String) : List String :=
  if spec.max_channels < channels.length
  then (prioritize spec.priority_order channels).take spec.max_channels
  else channels

/-- `SignalProcessor._apply_sleepfm_limits`: groups are emitted in the fixed
dict order BAS, EKG, EMG, RESP; each selected channel keeps its raw label
`channel_mapping[ch]`. -/
def applySleepfmLimits (cfg : SGroup → GroupSpec) (mg : ModalityGroups)
    (mapping : List (String × String)) : List (String × String) :=
  [SGroup.BAS, SGroup.EKG, SGroup.EMG, SGroup.RESP].flatMap fun g =>
    (selectGroup (cfg g) (groupChannels mg mapping g)).filterMap fun ch =>
      (mapping.lookup ch).map fun raw => (ch, raw)

/-- `max(0.001, min(x, 0.999))` — the cutoff clip of `_bandpass_filter`. -/
def clipNorm (x : ℚ) : ℚ := max (1/1000) (min x (999/1000))

/-- `SignalProcessor.TARGET_SR = 128` Hz. -/
def TARGET_SR : ℚ := 128

section FloatModel

/-- Value domain of the normalization step: rationals extended with the IEEE
special values that `np.nan_to_num` and the `np.isnan`/`np.isinf` guards
act on. -/
inductive FVal where
  | fin (q : ℚ) : FVal
  | nan : FVal
  | inf : FVal
  | ninf : FVal
deriving DecidableEq

/-- IEEE negation. -/
def fneg : FVal → FVal
  | .fin q => .fin (-q)
  | .nan => .nan
  | .inf => .ninf
  | .ninf => .inf

/-- IEEE addition: `nan` propagates; opposite infinities give `nan`. -/
def fadd : FVal → FVal → FVal
  | .nan, _ => .nan
  | _, .nan => .nan
  | .inf, .ninf => .nan
  | .ninf, .inf => .nan
  | .inf, _ => .inf
  | _, .inf => .inf
  | .ninf, _ => .ninf
  | _, .ninf => .ninf
  | .fin a, .fin b => .fin (a + b)

/-- IEEE subtraction. -/
def fsub (a b : FVal) : FVal := fadd a (fneg b)

/-- IEEE multiplication: `inf * 0 = nan`, signs otherwise. -/
def fmul : FVal → FVal → FVal
  | .nan, _ => .nan
  | _, .nan => .nan
  | .inf, .inf => .inf
  | .inf, .ninf => .ninf
  | .ninf, .inf => .ninf
  | .ninf, .ninf => .inf
  | .inf, .fin q => if q = 0 then .nan else if 0 < q then .inf else .ninf
  | .fin q, .inf => if q = 0 then .nan else if 0 < q then .inf else .ninf
  | .ninf, .fin q => if q = 0 then .nan else if 0 < q then .ninf else .inf
  | .fin q, .ninf => if q = 0 then .nan else if 0 < q then .ninf else .inf
  | .fin a, .fin b => .fin (a * b)

/-- IEEE division under numpy semantics (`x/0` is a warning, not an
exception): `0/0 = nan`, `±x/0 = ±inf`, `x/±inf = 0` (signed zeros are not
modelled). -/
def fdiv : FVal → FVal → FVal
  | .nan, _ => .nan
  | _, .nan => .nan
  | .inf, .inf => .nan
  | .inf, .ninf => .nan
  | .ninf, .inf => .nan
  | .ninf, .ninf => .nan
  | .inf, .fin q => if 0 ≤ q then .inf else .ninf
  | .ninf, .fin q => if 0 ≤ q then .ninf else .inf
  | .fin _, .inf => .fin 0
  | .fin _, .ninf => .fin 0
  | .fin a, .fin b =>
    if b = 0 then (if a = 0 then .nan else if 0 < a then .inf else .ninf)
    else .fin (a / b)

/-- Square root classes: `sqrt nan = nan`, `sqrt inf = inf`, `sqrt` of a
negative value is `nan`; on non-negative rationals the (irrational) IEEE
value is represented by `Rat.sqrt`, which is exact on squares and preserves
the zero/positive classification that the degenerate-std test observes. -/
def fsqrt : FVal → FVal
  | .fin q => if q < 0 then .nan else .fin (Rat.sqrt q)
  | .nan => .nan
  | .inf => .inf
  | .ninf => .nan

/-- `np.sum` (exact accumulation; the order of summation is immaterial for
exact rationals and for the nan/inf propagation classes). -/
def fsum (l : List FVal) : FVal := l.foldr fadd (.fin 0)

/-- `np.mean(x) = sum(x) / len(x)` (mean of an empty array is `0/0 = nan`,
matching numpy's warning-and-nan behavior). -/
def fmean (l : List FVal) : FVal := fdiv (fsum l) (.fin (l.length : ℚ))

/-- `np.std(x)` (population, `ddof=0`): square root of the mean squared
deviation from the mean. -/
def fstd (l : List FVal) : FVal :=
  fsqrt (fmean (l.map fun x => fmul (fsub x (fmean l)) (fsub x (fmean l))))

/-- `np.isnan(v) or np.isinf(v)`. -/
def fIsBad (v : FVal) : Bool := v == .nan || v == .inf || v == .ninf

/-- The degenerate-std test of `_normalize_signal`:
`std == 0 or np.isnan(std) or np.isinf(std)`. -/
def stdInvalid (v : FVal) : Bool := v == .fin 0 || fIsBad v

/-- `np.nan_to_num(v, nan=0.0, posinf=10.0, neginf=-10.0)`, elementwise. -/
def nanToNum : FVal → FVal
  | .nan => .fin 0
  | .inf => .fin 10
  | .ninf => .fin (-10)
  | .fin q => .fin q

/-- The `normalized` local of `_normalize_signal`: mean-centering only when
the std is degenerate, full z-scoring otherwise. -/
def rawNormalized (sig : List FVal) : List FVal :=
  if stdInvalid (fstd sig) then sig.map (fun x => fsub x (fmean sig))
  else sig.map (fun x => fdiv (fsub x (fmean sig)) (fstd sig))

/-- `np.min` of a list: pairwise reduction; `nan` propagates. Empty input
raises in numpy, hence `Option`. -/
def fminPair : FVal → FVal → FVal
  | .nan, _ => .nan
  | _, .nan => .nan
  | .ninf, _ => .ninf
  | _, .ninf => .ninf
  | .inf, x => x
  | x, .inf => x
  | .fin a, .fin b => .fin (min a b)

/-- `np.max` of a pair, dually. -/
def fmaxPair : FVal → FVal → FVal
  | .nan, _ => .nan
  | _, .nan => .nan
  | .inf, _ => .inf
  | _, .inf => .inf
  | .ninf, x => x
  | x, .ninf => x
  | .fin a, .fin b => .fin (max a b)

/-- `np.min(l)` (`none` models the `ValueError` on an empty array). -/
def fmin : List FVal → Option FVal
  | [] => none
  | x :: rest => some (rest.foldl fminPair x)

/-- `np.max(l)`. -/
def fmax : List FVal → Option FVal
  | [] => none
  | x :: rest => some (rest.foldl fmaxPair x)

/-- The `stats` dict returned by `_normalize_signal`. -/
structure NormStats where
  mean : FVal
  std : FVal
  minv : FVal
  maxv : FVal
deriving DecidableEq

/-- `SignalProcessor._normalize_signal`: degenerate std → mean-center and
report `std = 1`; `np.nan_to_num` pass iff any `nan`/`inf` remains; stats
taken on the input signal. `none` models the `ValueError` numpy raises on
`np.min` of an empty array (caught per channel by the caller). -/
def normalizeSignal (sig : List FVal) : Option (List FVal × NormStats) :=
  match fmin sig, fmax sig with
  | some mn, some mx =>
    let normalized := rawNormalized sig
    let cleaned := if normalized.any fIsBad then normalized.map nanToNum else normalized
    some (cleaned,
      ⟨fmean sig, if stdInvalid (fstd sig) then .fin 1 else fstd sig, mn, mx⟩)
  | _, _ => none

end FloatModel

/-- `scipy.interpolate.interp1d(..., kind='linear', fill_value='extrapolate')`
on the uniform grid `i / sr`, evaluated at time `t`: linear interpolation
between the two neighbouring samples, extrapolating with the first/last
segment beyond the ends. -/
def interpUniform (sig : List FVal) (sr : ℚ) (t : ℚ) : FVal :=
  let x : ℚ := t * sr
  let i : ℕ := min (⌊x⌋.toNat) (sig.length - 2)
  let y0 := sig.getD i (.fin 0)
  let y1 := sig.getD (i + 1) (.fin 0)
  fadd y0 (fmul (.fin (x - (i : ℚ))) (fsub y1 y0))

/-- `SignalProcessor._resample_signal`: `duration = len / original_sr`,
`target_length = int(duration * target_sr)`, linear interpolation of the
target time grid `j / target_sr`. `interp1d` with fewer than two samples
raises (`none`, caught per channel by the caller). -/
def resampleSignal (sig : List FVal) (sr : ℚ) : Option (List FVal) :=
  if sig.length < 2 then none
  else
    let targetLen := (pyInt ((sig.length : ℚ) / sr * TARGET_SR)).toNat
    some ((List.range targetLen).map fun (j : ℕ) => interpUniform sig sr ((j : ℚ) / TARGET_SR))

/-- `SignalProcessor._bandpass_filter`, parametric in the Butterworth
design-and-filtfilt kernel (`design order low_norm high_norm`): clip the
normalized cutoffs into `[0.001, 0.999]`; bypass (return the raw signal)
when the clipped `low ≥ high`. -/
def bandpassFilter (design : ℕ → ℚ → ℚ → List FVal → List FVal)
    (sig : List FVal) (sr low high : ℚ) (order : ℕ) : List FVal :=
  let nyquist := sr / 2
  let lowNorm := clipNorm (low / nyquist)
  let highNorm := clipNorm (high / nyquist)
  if highNorm ≤ lowNorm then sig
  else design order lowNorm highNorm sig

/-- `SignalProcessor._process_channel` for one channel, parametric in the
filter kernel `filt` (the modality-specific bandpass, always applied since
`_get_channel_modality` always returns one of the five families) and the
`astype(float16)` quantization `quant`: filter, resample unless already at
the target rate, normalize, quantize. -/
def processChannel (filt : List FVal → List FVal) (quant : FVal → FVal)
    (sig : List FVal) (sr : ℚ) : Option (List FVal × NormStats) :=
  let filtered := filt sig
  let resampled := if sr = TARGET_SR then some filtered else resampleSignal filtered sr
  resampled.bind fun rs =>
    (normalizeSignal rs).map fun p => (p.1.map quant, p.2)

/-- The MNE `Raw` handle as `_process_channel` sees it: one global sampling
rate `info['sfreq']` and one rectangular data array (every channel has
`n_times` samples); samples are fetched by channel name. -/
structure RawRecording where
  sfreq : ℚ
  nTimes : ℕ
  data : String → List FVal

/-- The per-channel loop of `process_edf`: channels whose processing raises
are skipped (`continue`); the surviving processed arrays, keyed by canonical
name, form the signal container. -/
def buildContainer (filt : List FVal → List FVal) (quant : FVal → FVal)
    (rec : RawRecording) (mapping : List (String × String)) :
    List (String × List FVal) :=
  mapping.filterMap fun p =>
    (processChannel filt quant (rec.data p.2) rec.sfreq).map fun q => (p.1, q.1)

section SortLemmas

theorem insertEvent_perm (e : StageEvent) (l : List StageEvent) :
    List.Perm (insertEvent e l) (e :: l) := by
  induction l with
  | nil => simp [insertEvent]
  | cons f rest ih =>
    by_cases h : f.start < e.start
    · simp only [insertEvent, if_pos h]
      exact (ih.cons f).trans (List.Perm.swap e f rest)
    · simp [insertEvent, if_neg h]

theorem sortStages_perm (stages : List StageEvent) :
    List.Perm (sortStages stages) stages := by
  induction stages with
  | nil => simp [sortStages]
  | cons e rest ih =>
    have h : sortStages (e :: rest) = insertEvent e (sortStages rest) := rfl
    rw [h]
    exact (insertEvent_perm e (sortStages rest)).trans (ih.cons e)

theorem insertEvent_pairwise (e : StageEvent) (l : List StageEvent)
    (h : l.Pairwise (fun a b => a.start ≤ b.start)) :
    (insertEvent e l).Pairwise (fun a b => a.start ≤ b.start) := by
  induction l with
  | nil => simp [insertEvent]
  | cons f rest ih =>
    rcases List.pairwise_cons.mp h with ⟨hf, hrest⟩
    by_cases hc : f.start < e.start
    · simp only [insertEvent, if_pos hc]
      refine List.pairwise_cons.mpr ⟨?_, ih hrest⟩
      intro x hx
      rcases List.mem_cons.mp ((insertEvent_perm e rest).mem_iff.mp hx) with h1 | h2
      · exact h1 ▸ le_of_lt hc
      · exact hf x h2
    · simp only [insertEvent, if_neg hc]
      refine List.pairwise_cons.mpr ⟨?_, h⟩
      intro x hx
      rcases List.mem_cons.mp hx with h1 | h2
      · exact h1 ▸ not_lt.mp hc
      · exact le_trans (not_lt.mp hc) (hf x h2)

theorem sortStages_pairwise (stages : List StageEvent) :
    (sortStages stages).Pairwise (fun a b => a.start ≤ b.start) := by
  induction stages with
  | nil => simp [sortStages]
  | cons e rest ih => exact insertEvent_pairwise e (sortStages rest) ih

theorem getLastD_mem (l : List StageEvent) (d : StageEvent) (h : l ≠ []) :
    l.getLastD d ∈ l := by
  cases l with
  | nil => exact absurd rfl h
  | cons f rest =>
    rw [List.getLastD_cons]
    exact List.getLastD_mem_cons rest f

theorem pairwise_le_getLastD :
    ∀ (l : List StageEvent) (d : StageEvent),
      l.Pairwise (fun a b => a.start ≤ b.start) →
      ∀ x ∈ l, x.start ≤ (l.getLastD d).start
  | [], _, _, x, hx => absurd hx (List.not_mem_nil x)
  | f :: rest, d, h, x, hx => by
    rw [List.getLastD_cons]
    rcases List.pairwise_cons.mp h with ⟨hf, hrest⟩
    rcases List.mem_cons.mp hx with h1 | h2
    · subst h1
      rcases List.mem_cons.mp (List.getLastD_mem_cons rest x) with hg | hg
      · rw [hg]
      · exact hf _ hg
    · exact pairwise_le_getLastD rest f hrest x h2

end SortLemmas

/-- Decidable test "the slice written for event `e` covers epoch index `i`"
(indices below the array length only; the upper clip is implicit there). -/
def coversB (e : StageEvent) (i : ℕ) : Bool :=
  decide (startEpoch e ≤ (i : ℤ)) && decide ((i : ℤ) < endEpoch e)

section WriteLemmas

theorem writeStage_length (arr : List ℤ) (e : StageEvent) :
    (writeStage arr e).length = arr.length := by
  simp [writeStage]

theorem foldl_writeStage_length :
    ∀ (l : List StageEvent) (arr : List ℤ),
      (l.foldl writeStage arr).length = arr.length
  | [], _ => rfl
  | e :: t, arr => by
    rw [List.foldl_cons, foldl_writeStage_length t (writeStage arr e),
      writeStage_length]

theorem writeStage_getD (arr : List ℤ) (e : StageEvent) (i : ℕ)
    (hi : i < arr.length) :
    (writeStage arr e).getD i 0 =
      if coversB e i then e.stage else arr.getD i 0 := by
  have hr : i < (List.range arr.length).length := by simpa using hi
  rw [writeStage, List.getD_eq_getElem _ _ (by simpa using hi),
    List.getElem_map, List.getElem_range]
  by_cases hc : startEpoch e ≤ (i : ℤ) ∧ (i : ℤ) < endEpoch e
  · rw [if_pos hc, if_pos (by simp [coversB, hc.1, hc.2])]
  · rw [if_neg hc, if_neg (by simpa [coversB, Decidable.not_and_iff_or_not] using hc)]

theorem foldl_writeStage_getD :
    ∀ (l : List StageEvent) (arr : List ℤ) (i : ℕ), i < arr.length →
      (l.foldl writeStage arr).getD i 0 =
        (((l.filter (fun e => coversB e i)).getLast?).map (fun e => e.stage)).getD
          (arr.getD i 0)
  | [], arr, i, _ => by simp
  | e :: t, arr, i, hi => by
    rw [List.foldl_cons,
      foldl_writeStage_getD t (writeStage arr e) i (by rw [writeStage_length]; exact hi)]
    cases hcov : coversB e i with
    | true =>
      cases hft : t.filter (fun f => coversB f i) with
      | nil =>
        simp only [List.filter_cons, hcov, if_true, hft, List.getLast?_singleton,
          List.getLast?_nil, Option.map_none', Option.map_some', Option.getD_some,
          Option.getD_none]
        rw [writeStage_getD arr e i hi, if_pos hcov]
      | cons x xs =>
        have hy : (x :: xs).getLast? = some ((x :: xs).getLast (by simp)) :=
          List.getLast?_eq_getLast _ (by simp)
        simp only [List.filter_cons, hcov, if_true, hft, List.getLast?_cons_cons, hy,
          Option.map_some', Option.getD_some]
    | false =>
      cases hft : t.filter (fun f => coversB f i) with
      | nil =>
        simp only [List.filter_cons, hcov, if_false, hft, List.getLast?_nil,
          Option.map_none', Option.getD_none]
        rw [writeStage_getD arr e i hi, if_neg (by simp [hcov])]
        simp
      | cons x xs =>
        have hy : (x :: xs).getLast? = some ((x :: xs).getLast (by simp)) :=
          List.getLast?_eq_getLast _ (by simp)
        simp only [List.filter_cons, hcov, if_false, hft, hy,
          Option.map_some', Option.getD_some]
        simp [hy]

end WriteLemmas

section MapperLemmas

theorem filter_getLast?_unique (l : List String) (p : String → Bool) (a : String)
    (ha : a ∈ l) (hpa : p a = true) (huniq : ∀ x ∈ l, p x = true → x = a) :
    (l.filter p).getLast? = some a := by
  induction l with
  | nil => cases ha
  | cons y t ih =>
    by_cases hy : p y = true
    · have hya : y = a := huniq y (List.mem_cons_self y t) hy
      subst hya
      rw [List.filter_cons_of_pos hy]
      cases hft : t.filter p with
      | nil => simp
      | cons x xs =>
        have hxmem : x ∈ t.filter p := by rw [hft]; exact List.mem_cons_self x xs
        have hxt : x ∈ t := List.mem_of_mem_filter hxmem
        have hxp : p x = true := List.of_mem_filter hxmem
        have hxa : x = y := huniq x (List.mem_cons_of_mem y hxt) hxp
        have hyt : y ∈ t := hxa ▸ hxt
        rw [List.getLast?_cons_cons, ← hft]
        exact ih hyt (fun z hz hpz => huniq z (List.mem_cons_of_mem y hz) hpz)
    · rw [List.filter_cons_of_neg (by simpa using hy)]
      have hat : a ∈ t := by
        rcases List.mem_cons.mp ha with h | h
        · exact absurd (h ▸ hpa) hy
        · exact h
      exact ih hat (fun z hz hpz => huniq z (List.mem_cons_of_mem y hz) hpz)

theorem availLookup_congr (l1 l2 : List String)
    (hinj : ∀ a ∈ l1, ∀ b ∈ l1, strLower a = strLower b → a = b)
    (hmem : ∀ x : String, x ∈ l1 ↔ x ∈ l2) (k : String) :
    availLookup l1 k = availLookup l2 k := by
  by_cases hex : ∃ a ∈ l1, strLower a = k
  · obtain ⟨a, hal, hak⟩ := hex
    have h1 : (l1.filter (fun ch => strLower ch == k)).getLast? = some a :=
      filter_getLast?_unique l1 _ a hal (by simp [hak])
        (fun x hx hpx => hinj x hx a hal (by
          have := beq_iff_eq.mp hpx
          rw [this, hak]))
    have h2 : (l2.filter (fun ch => strLower ch == k)).getLast? = some a :=
      filter_getLast?_unique l2 _ a ((hmem a).mp hal) (by simp [hak])
        (fun x hx hpx => hinj x ((hmem x).mpr hx) a hal (by
          have := beq_iff_eq.mp hpx
          rw [this, hak]))
    rw [availLookup, availLookup, h1, h2]
  · push_neg at hex
    have h1 : l1.filter (fun ch => strLower ch == k) = [] := by
      rw [List.filter_eq_nil_iff]
      intro ch hch
      simpa using hex ch hch
    have h2 : l2.filter (fun ch => strLower ch == k) = [] := by
      rw [List.filter_eq_nil_iff]
      intro ch hch
      simpa using hex ch ((hmem ch).mpr hch)
    rw [availLookup, availLookup, h1, h2]

theorem detectOne_congr (l1 l2 : List String)
    (havail : ∀ k, availLookup l1 k = availLookup l2 k) :
    ∀ os : List String, detectOne l1 os = detectOne l2 os
  | [] => rfl
  | a :: rest => by
    rw [detectOne, detectOne, havail (strLower a)]
    cases availLookup l2 (strLower a) with
    | none => exact detectOne_congr l1 l2 havail rest
    | some found => rfl

theorem lookup_none_of_not_mem_keys {β : Type} (l : List (String × β)) (k : String)
    (h : k ∉ l.map Prod.fst) : l.lookup k = none := by
  induction l with
  | nil => rfl
  | cons p t ih =>
    cases p with
    | mk k1 v1 =>
      have hk : (k == k1) = false := by
        simp only [beq_eq_false_iff_ne, ne_eq]
        intro he
        exact h (by simp [he])
      simp only [List.lookup_cons, hk]
      exact ih (fun hm => h (by simp at hm ⊢; exact Or.inr hm))

theorem lookup_filterMap_assoc {β : Type} (F : (String × List String) → Option (String × β))
    (hF : ∀ p q, F p = some q → q.1 = p.1) :
    ∀ (l : List (String × List String)) (std : String) (alts : List String),
      (std, alts) ∈ l → (l.map Prod.fst).Nodup →
      (l.filterMap F).lookup std = (F (std, alts)).map Prod.snd
  | [], _, _, hmem, _ => absurd hmem (List.not_mem_nil _)
  | p :: t, std, alts, hmem, hnd => by
    rw [List.map_cons, List.nodup_cons] at hnd
    rcases List.mem_cons.mp hmem with h | h
    · subst h
      cases hFp : F (std, alts) with
      | none =>
        rw [List.filterMap_cons_none hFp]
        rw [lookup_none_of_not_mem_keys _ _ (fun hm => hnd.1 (by
          simp only [List.mem_map] at hm ⊢
          obtain ⟨q, hq, hq1⟩ := hm
          obtain ⟨p', hp', hFp'⟩ := List.mem_filterMap.mp hq
          exact ⟨p', hp', by rw [← hq1, hF p' q hFp']⟩))]
        rfl
      | some q =>
        have hq1 : q.1 = std := hF _ _ hFp
        rw [List.filterMap_cons_some hFp]
        cases q with
        | mk qk qv =>
          have hqk : (std == qk) = true := by simpa using hq1.symm
          simp [List.lookup_cons, hqk, hFp]
    · have hstd : std ∈ t.map Prod.fst := by
        simp only [List.mem_map]
        exact ⟨(std, alts), h, rfl⟩
      have hp1 : p.1 ≠ std := fun he => hnd.1 (he ▸ hstd)
      cases hFp : F p with
      | none =>
        rw [List.filterMap_cons_none hFp]
        exact lookup_filterMap_assoc F hF t std alts h hnd.2
      | some q =>
        have hq1 : q.1 = p.1 := hF _ _ hFp
        rw [List.filterMap_cons_some hFp]
        cases q with
        | mk qk qv =>
          have hqk : (std == qk) = false := by
            simp only [beq_eq_false_iff_ne, ne_eq]
            intro he
            exact hp1 (by rw [← hq1, ← he])
          simp only [List.lookup_cons, hqk]
          exact lookup_filterMap_assoc F hF t std alts h hnd.2

theorem detectOne_none_of_no_match (labels : List String) :
    ∀ os : List String, (∀ b ∈ os, ∀ ch ∈ labels, strLower ch ≠ strLower b) →
      detectOne labels os = none
  | [], _ => rfl
  | a :: rest, h => by
    have hfil : labels.filter (fun ch => strLower ch == strLower a) = [] := by
      rw [List.filter_eq_nil_iff]
      intro ch hch
      simpa using h a (List.mem_cons_self a rest) ch hch
    rw [detectOne, availLookup, hfil]
    exact detectOne_none_of_no_match labels rest
      (fun b hb ch hch => h b (List.mem_cons_of_mem a hb) ch hch)

theorem detectOne_first_match (labels : List String) :
    ∀ (pre : List String) (a : String) (post : List String),
      (∀ b ∈ pre, ∀ ch ∈ labels, strLower ch ≠ strLower b) →
      (∃ ch ∈ labels, strLower ch = strLower a) →
      ∃ ch ∈ labels, strLower ch = strLower a ∧
        detectOne labels (pre ++ a :: post) = some ch
  | [], a, post, _, hex => by
    obtain ⟨c, hc, hck⟩ := hex
    cases hl : labels.filter (fun ch => strLower ch == strLower a) with
    | nil =>
      have := List.filter_eq_nil_iff.mp hl c hc
      simp [hck] at this
    | cons x xs =>
      have hch : (x :: xs).getLast? = some ((x :: xs).getLast (by simp)) :=
        List.getLast?_eq_getLast _ (by simp)
      have hmemf : (x :: xs).getLast (by simp) ∈
          labels.filter (fun ch => strLower ch == strLower a) := by
        rw [hl]
        exact List.getLast_mem _
      refine ⟨(x :: xs).getLast (by simp), List.mem_of_mem_filter hmemf,
        by simpa using List.of_mem_filter hmemf, ?_⟩
      simp only [List.nil_append, detectOne, availLookup, hl, hch]
  | p :: pre, a, post, hpre, hex => by
    have hfil : labels.filter (fun ch => strLower ch == strLower p) = [] := by
      rw [List.filter_eq_nil_iff]
      intro ch hch
      simpa using hpre p (List.mem_cons_self p pre) ch hch
    have hrec := detectOne_first_match labels pre a post
      (fun b hb ch hch => hpre b (List.mem_cons_of_mem p hb) ch hch) hex
    obtain ⟨ch, hc1, hc2, hc3⟩ := hrec
    refine ⟨ch, hc1, hc2, ?_⟩
    simp only [List.cons_append, detectOne, availLookup, hfil, List.getLast?_nil]
    exact hc3

theorem lookup_detect (cfg : MapperConfig) (labels : List String)
    (std : String) (alts : List String)
    (hmem : (std, alts) ∈ cfg.channel_alternatives)
    (hnd : (cfg.channel_alternatives.map Prod.fst).Nodup) :
    (detect_channels_from_list cfg labels).lookup std =
      (detectOne labels (searchOrder cfg std alts)).bind
        (fun found => if found = "" then none else some found) := by
  rw [detect_channels_from_list,
    lookup_filterMap_assoc _ ?hf cfg.channel_alternatives std alts hmem hnd]
  case hf =>
    intro p q hq
    rcases ho : detectOne labels (searchOrder cfg p.1 p.2) with _ | found
    · rw [ho] at hq; cases hq
    · rw [ho] at hq
      have hq2 : (if found = "" then none else some (p.1, found)) = some q := hq
      by_cases hf0 : found = ""
      · rw [if_pos hf0] at hq2; cases hq2
      · rw [if_neg hf0] at hq2
        cases hq2; rfl
  cases ho : detectOne labels (searchOrder cfg std alts) with
  | none => simp [ho]
  | some found =>
    by_cases hf0 : found = ""
    · simp [ho, hf0]
    · simp [ho, hf0]

end MapperLemmas

section SleepfmLemmas

theorem mem_groupChannels (mg : ModalityGroups) (mapping : List (String × String))
    (g : SGroup) (x : String) (h : x ∈ groupChannels mg mapping g) :
    x ∈ mapping.map Prod.fst ∧ sleepfmGroupOf mg x = some g := by
  have hf := List.mem_filter.mp h
  exact ⟨hf.1, by simpa using hf.2⟩

theorem mem_prioritize (p c : List String) (x : String) (h : x ∈ prioritize p c) :
    x ∈ c := by
  rw [prioritize] at h
  rcases List.mem_append.mp h with h1 | h1
  · have := List.mem_filter.mp h1
    simpa using this.2
  · exact (List.mem_filter.mp h1).1

theorem mem_selectGroup (spec : GroupSpec) (c : List String) (x : String)
    (h : x ∈ selectGroup spec c) : x ∈ c := by
  rw [selectGroup] at h
  by_cases hc : spec.max_channels < c.length
  · rw [if_pos hc] at h
    exact mem_prioritize _ _ _ (List.take_subset _ _ h)
  · rwa [if_neg hc] at h

theorem exists_lookup_of_mem_keys {β : Type} (l : List (String × β)) (x : String)
    (h : x ∈ l.map Prod.fst) : ∃ v, l.lookup x = some v := by
  induction l with
  | nil => simp at h
  | cons p t ih =>
    cases p with
    | mk k v =>
      by_cases hx : x = k
      · exact ⟨v, by simp [List.lookup_cons, hx]⟩
      · have hxt : x ∈ t.map Prod.fst := by
          rw [List.map_cons] at h
          rcases List.mem_cons.mp h with h1 | h1
          · exact absurd h1 hx
          · exact h1
        obtain ⟨w, hw⟩ := ih hxt
        have hk : (x == k) = false := by simp [hx]
        exact ⟨w, by simp [List.lookup_cons, hk, hw]⟩

theorem map_fst_filterMap_lookup (mapping : List (String × String)) :
    ∀ (l : List String), (∀ x ∈ l, x ∈ mapping.map Prod.fst) →
      ((l.filterMap fun ch => (mapping.lookup ch).map fun raw => (ch, raw)).map
        Prod.fst) = l
  | [], _ => rfl
  | x :: t, h => by
    obtain ⟨v, hv⟩ := exists_lookup_of_mem_keys mapping x (h x (List.mem_cons_self x t))
    rw [List.filterMap_cons_some (by rw [hv]; rfl), List.map_cons]
    rw [map_fst_filterMap_lookup mapping t (fun y hy => h y (List.mem_cons_of_mem x hy))]

theorem contribution_names (cfg : SGroup → GroupSpec) (mg : ModalityGroups)
    (mapping : List (String × String)) (g : SGroup) :
    ((selectGroup (cfg g) (groupChannels mg mapping g)).filterMap
      (fun ch => (mapping.lookup ch).map fun raw => (ch, raw))).map Prod.fst =
    selectGroup (cfg g) (groupChannels mg mapping g) :=
  map_fst_filterMap_lookup mapping _
    (fun x hx => (mem_groupChannels mg mapping g x (mem_selectGroup _ _ x hx)).1)

theorem contribution_filter (cfg : SGroup → GroupSpec) (mg : ModalityGroups)
    (mapping : List (String × String)) (g gq : SGroup) :
    (selectGroup (cfg g) (groupChannels mg mapping g)).filter
      (fun s => sleepfmGroupOf mg s == some gq) =
    if g = gq then selectGroup (cfg gq) (groupChannels mg mapping gq) else [] := by
  by_cases hg : g = gq
  · subst hg
    rw [if_pos rfl]
    rw [List.filter_eq_self]
    intro x hx
    simpa using (mem_groupChannels mg mapping g x (mem_selectGroup _ _ x hx)).2
  · rw [if_neg hg, List.filter_eq_nil_iff]
    intro x hx
    have h2 := (mem_groupChannels mg mapping g x (mem_selectGroup _ _ x hx)).2
    simp only [beq_iff_eq, h2]
    intro he
    exact hg (by injection he)

theorem applySleepfm_filter_eq (cfg : SGroup → GroupSpec) (mg : ModalityGroups)
    (mapping : List (String × String)) (g : SGroup) :
    ((applySleepfmLimits cfg mg mapping).map Prod.fst).filter
      (fun s => sleepfmGroupOf mg s == some g) =
    selectGroup (cfg g) (groupChannels mg mapping g) := by
  rw [applySleepfmLimits]
  simp only [List.flatMap_cons, List.flatMap_nil, List.append_nil, List.map_append,
    List.filter_append, contribution_names, contribution_filter]
  cases g <;> simp

theorem mem_applySleepfm_names (cfg : SGroup → GroupSpec) (mg : ModalityGroups)
    (mapping : List (String × String)) (x : String)
    (h : x ∈ (applySleepfmLimits cfg mg mapping).map Prod.fst) :
    ∃ g : SGroup, sleepfmGroupOf mg x = some g := by
  rw [applySleepfmLimits] at h
  simp only [List.flatMap_cons, List.flatMap_nil, List.append_nil, List.map_append,
    contribution_names, List.mem_append] at h
  rcases h with h | h | h | h
  · exact ⟨_, (mem_groupChannels mg mapping _ x (mem_selectGroup _ _ x h)).2⟩
  · exact ⟨_, (mem_groupChannels mg mapping _ x (mem_selectGroup _ _ x h)).2⟩
  · exact ⟨_, (mem_groupChannels mg mapping _ x (mem_selectGroup _ _ x h)).2⟩
  · exact ⟨_, (mem_groupChannels mg mapping _ x (mem_selectGroup _ _ x h)).2⟩

end SleepfmLemmas

section NormalizeLemmas

theorem fadd_fin (a b : ℚ) : fadd (.fin a) (.fin b) = .fin (a + b) := rfl

theorem fneg_fin (a : ℚ) : fneg (.fin a) = .fin (-a) := rfl

theorem fsub_fin (a b : ℚ) : fsub (.fin a) (.fin b) = .fin (a - b) := by
  rw [fsub, fneg_fin, fadd_fin, sub_eq_add_neg]

theorem fdiv_fin_of_ne (a b : ℚ) (hb : b ≠ 0) :
    fdiv (.fin a) (.fin b) = .fin (a / b) := by
  simp [fdiv, hb]

theorem nanToNum_clean (v : FVal) (h : fIsBad v = false) : nanToNum v = v := by
  cases v with
  | fin q => rfl
  | nan => simp [fIsBad] at h
  | inf => simp [fIsBad] at h
  | ninf => simp [fIsBad] at h

theorem fIsBad_nanToNum (v : FVal) : fIsBad (nanToNum v) = false := by
  cases v <;> simp [nanToNum, fIsBad]

theorem map_nanToNum_of_clean (l : List FVal) (h : l.any fIsBad = false) :
    l.map nanToNum = l := by
  induction l with
  | nil => rfl
  | cons x t ih =>
    rw [List.any_cons, Bool.or_eq_false_iff] at h
    rw [List.map_cons, nanToNum_clean x h.1, ih h.2]

theorem cleaned_eq_map_nanToNum (l : List FVal) :
    (if l.any fIsBad then l.map nanToNum else l) = l.map nanToNum := by
  by_cases h : l.any fIsBad = true
  · rw [if_pos h]
  · rw [if_neg h]
    exact (map_nanToNum_of_clean l (by simpa using h)).symm

theorem normalizeSignal_cons (x : FVal) (r : List FVal) :
    normalizeSignal (x :: r) = some
      ((if (rawNormalized (x :: r)).any fIsBad then (rawNormalized (x :: r)).map nanToNum
        else rawNormalized (x :: r)),
       ⟨fmean (x :: r), if stdInvalid (fstd (x :: r)) then .fin 1 else fstd (x :: r),
        r.foldl fminPair x, r.foldl fmaxPair x⟩) := rfl

theorem normalizeSignal_parts (sig : List FVal) (hne : sig ≠ []) :
    ∃ stats : NormStats,
      normalizeSignal sig = some ((rawNormalized sig).map nanToNum, stats) ∧
      stats.std = (if stdInvalid (fstd sig) then FVal.fin 1 else fstd sig) := by
  cases sig with
  | nil => exact absurd rfl hne
  | cons x r =>
    refine ⟨⟨fmean (x :: r), if stdInvalid (fstd (x :: r)) then .fin 1 else fstd (x :: r),
      r.foldl fminPair x, r.foldl fmaxPair x⟩, ?_, rfl⟩
    rw [normalizeSignal_cons, cleaned_eq_map_nanToNum]

theorem normalizeSignal_none_iff (sig : List FVal) :
    normalizeSignal sig = none ↔ sig = [] := by
  cases sig with
  | nil => simp [normalizeSignal, fmin, fmax]
  | cons x r => simp [normalizeSignal_cons]

theorem fsum_const (q : ℚ) :
    ∀ (l : List FVal), (∀ v ∈ l, v = FVal.fin q) →
      fsum l = .fin (l.length * q)
  | [], _ => by simp [fsum]
  | x :: t, h => by
    have hx : x = FVal.fin q := h x (List.mem_cons_self x t)
    have ht := fsum_const q t (fun v hv => h v (List.mem_cons_of_mem x hv))
    have hstep : fsum (x :: t) = fadd x (fsum t) := rfl
    rw [hstep, hx, ht, fadd_fin]
    congr 1
    rw [List.length_cons]
    push_cast
    ring

theorem fmean_const (sig : List FVal) (q : ℚ) (hne : sig ≠ [])
    (h : ∀ v ∈ sig, v = FVal.fin q) : fmean sig = .fin q := by
  have hn : (sig.length : ℚ) ≠ 0 := by
    rw [ne_eq, Nat.cast_eq_zero, List.length_eq_zero]
    exact hne
  rw [fmean, fsum_const q sig h, fdiv_fin_of_ne _ _ hn]
  congr 1
  field_simp

theorem map_eq_replicate_of_const (l : List FVal) (f : FVal → FVal) (c : FVal)
    (h : ∀ v ∈ l, f v = c) : l.map f = List.replicate l.length c := by
  induction l with
  | nil => rfl
  | cons x t ih =>
    rw [List.map_cons, h x (List.mem_cons_self x t), List.length_cons,
      List.replicate_succ, ih (fun v hv => h v (List.mem_cons_of_mem x hv))]

end NormalizeLemmas

section LengthLemmas

theorem rawNormalized_length (sig : List FVal) :
    (rawNormalized sig).length = sig.length := by
  rw [rawNormalized]
  by_cases h : stdInvalid (fstd sig) = true
  · rw [if_pos h, List.length_map]
  · rw [if_neg h, List.length_map]

theorem normalizeSignal_length (sig out : List FVal) (stats : NormStats)
    (h : normalizeSignal sig = some (out, stats)) : out.length = sig.length := by
  have hne : sig ≠ [] := by
    intro h0
    rw [(normalizeSignal_none_iff sig).mpr h0] at h
    cases h
  obtain ⟨stats2, hnorm2, _⟩ := normalizeSignal_parts sig hne
  rw [hnorm2] at h
  have hpair := Option.some.inj h
  have hout : out = (rawNormalized sig).map nanToNum := (congrArg Prod.fst hpair).symm
  rw [hout, List.length_map, rawNormalized_length]

theorem resampleSignal_length (sig rs : List FVal) (sr : ℚ)
    (h : resampleSignal sig sr = some rs) :
    rs.length = (pyInt ((sig.length : ℚ) / sr * TARGET_SR)).toNat := by
  rw [resampleSignal] at h
  by_cases hlt : sig.length < 2
  · rw [if_pos hlt] at h
    cases h
  · rw [if_neg hlt] at h
    have := Option.some.inj h
    rw [← this, List.length_map, List.length_range]

theorem processChannel_length (filt : List FVal → List FVal) (quant : FVal → FVal)
    (sig out : List FVal) (sr : ℚ) (stats : NormStats)
    (hfilt : ∀ l, (filt l).length = l.length)
    (h : processChannel filt quant sig sr = some (out, stats)) :
    out.length = if sr = TARGET_SR then sig.length
      else (pyInt ((sig.length : ℚ) / sr * TARGET_SR)).toNat := by
  simp only [processChannel] at h
  by_cases hsr : sr = TARGET_SR
  · rw [if_pos hsr] at h ⊢
    rw [Option.some_bind] at h
    obtain ⟨p, hp, hq⟩ := Option.map_eq_some'.mp h
    cases p with
    | mk p1 p2 =>
      have hout : out = p1.map quant := (congrArg Prod.fst hq).symm
      rw [hout, List.length_map, normalizeSignal_length _ _ _ hp, hfilt]
  · rw [if_neg hsr] at h ⊢
    obtain ⟨rs, hrs, hb⟩ := Option.bind_eq_some.mp h
    obtain ⟨p, hp, hq⟩ := Option.map_eq_some'.mp hb
    cases p with
    | mk p1 p2 =>
      have hout : out = p1.map quant := (congrArg Prod.fst hq).symm
      rw [hout, List.length_map, normalizeSignal_length _ _ _ hp,
        resampleSignal_length _ _ _ hrs, hfilt]

end LengthLemmas

/-! ## Claims about the annotation processor -/

/-- C1, counterexample. The claim asserts that each event is written across
the epoch range `[⌊start/30⌋, ⌈(start+duration)/30⌉)`. For the single event
`start = 15, duration = 30, stage = 0` that range is `[0, 2)`, so both epochs
of the two-epoch grid would carry stage `0` and no epoch inside the range may
stay unknown; but `_stages_to_array` computes the range as
`[int(start/30), int(start/30) + ceil(duration/30)) = [0, 1)` and leaves
epoch `1` at `-1`. -/
theorem c1_counterexample :
    stagesToArray [⟨15, 30, 0⟩] = [0, -1] ∧
    (⌊(15 : ℚ) / 30⌋ : ℤ) = 0 ∧ (⌈((15 : ℚ) + 30) / 30⌉ : ℤ) = 2 := by
  refine ⟨?_, by norm_num, by norm_num [Int.ceil_eq_iff]⟩
  have hc : (⌈(3 : ℚ) / 2⌉ : ℤ) = 2 := by norm_num [Int.ceil_eq_iff]
  norm_num [stagesToArray, sortStages, insertEvent, writeStage, startEpoch, endEpoch,
    numStageEpochs, pyInt, EPOCH_DURATION, Int.ceil_eq_iff, List.replicate,
    List.range_succ, hc]

/-- C1 (amended): for events with non-negative start and duration, the value
of `_stages_to_array` at any in-range epoch `i` is the stage code of the
**last** event, in ascending-start (stable) sorted order, whose written range
`[int(start/30), int(start/30) + ceil(duration/30))` — clipped to the array
bounds — contains `i`; epochs covered by no event remain unknown (`-1`).
This differs from the claim only in the upper end of the per-event range:
`int(start/30) + ceil(duration/30)` instead of `ceil((start+duration)/30)`
(the two agree whenever `start` is a multiple of 30). -/
theorem stagesToArray_lastWriteWins (stages : List StageEvent)
    (hnn : ∀ e ∈ stages, 0 ≤ e.start ∧ 0 ≤ e.duration)
    (i : ℕ) (hi : i < (stagesToArray stages).length) :
    (stagesToArray stages).getD i (-1) =
      (((sortStages stages).filter (fun e => coversB e i)).getLast?.map
        (fun e => e.stage)).getD (-1) := by
  by_cases hemp : stages.isEmpty = true
  · rw [stagesToArray, if_pos hemp] at hi
    simp at hi
  · have harr : stagesToArray stages =
        (sortStages stages).foldl writeStage
          (List.replicate
            ((⌈(((sortStages stages).getLastD defaultEvent).start +
              ((sortStages stages).getLastD defaultEvent).duration) /
                EPOCH_DURATION⌉).toNat) (-1)) := by
      rw [stagesToArray, if_neg hemp]
    have hlen : (stagesToArray stages).length =
        (⌈(((sortStages stages).getLastD defaultEvent).start +
          ((sortStages stages).getLastD defaultEvent).duration) /
            EPOCH_DURATION⌉).toNat := by
      rw [harr, foldl_writeStage_length, List.length_replicate]
    have hin : i < (⌈(((sortStages stages).getLastD defaultEvent).start +
        ((sortStages stages).getLastD defaultEvent).duration) /
          EPOCH_DURATION⌉).toNat := hlen ▸ hi
    have h0 : (List.replicate
        ((⌈(((sortStages stages).getLastD defaultEvent).start +
          ((sortStages stages).getLastD defaultEvent).duration) /
            EPOCH_DURATION⌉).toNat) (-1 : ℤ)).getD i 0 = -1 := by
      rw [List.getD_eq_getElem _ _ (by simpa using hin)]
      simp
    rw [List.getD_eq_getElem _ _ hi, ← List.getD_eq_getElem _ 0 hi, harr,
      foldl_writeStage_getD _ _ i (by simpa using hin), h0]

/-- C1, witness: Example B of the spec. The grid of
`[{start:0, duration:30, stage:0}, {start:30, duration:60, stage:2}]`
is `[0, 2, 2]`, and the amended theorem applied at epoch 1 yields the
last-covering-event characterization there. -/
theorem c1_witness :
    (∀ e ∈ [(⟨0, 30, 0⟩ : StageEvent), ⟨30, 60, 2⟩], 0 ≤ e.start ∧ 0 ≤ e.duration) ∧
    1 < (stagesToArray [⟨0, 30, 0⟩, ⟨30, 60, 2⟩]).length ∧
    ((stagesToArray [⟨0, 30, 0⟩, ⟨30, 60, 2⟩]).getD 1 (-1) =
      (((sortStages [⟨0, 30, 0⟩, ⟨30, 60, 2⟩]).filter
        (fun e => coversB e 1)).getLast?.map (fun e => e.stage)).getD (-1)) ∧
    stagesToArray [⟨0, 30, 0⟩, ⟨30, 60, 2⟩] = [0, 2, 2] := by
  have harr : stagesToArray [⟨0, 30, 0⟩, ⟨30, 60, 2⟩] = [0, 2, 2] := by
    norm_num [stagesToArray, sortStages, insertEvent, writeStage, startEpoch, endEpoch,
      numStageEpochs, pyInt, EPOCH_DURATION, Int.ceil_eq_iff, List.replicate,
      List.range_succ]
  have hnn : ∀ e ∈ [(⟨0, 30, 0⟩ : StageEvent), ⟨30, 60, 2⟩],
      0 ≤ e.start ∧ 0 ≤ e.duration := by
    intro e he
    rcases List.mem_cons.mp he with h | h
    · subst h; exact ⟨by norm_num, by norm_num⟩
    · rcases List.mem_cons.mp h with h2 | h2
      · subst h2; exact ⟨by norm_num, by norm_num⟩
      · cases h2
  have hlen : 1 < (stagesToArray [⟨0, 30, 0⟩, ⟨30, 60, 2⟩]).length := by
    rw [harr]; norm_num
  exact ⟨hnn, hlen, stagesToArray_lastWriteWins _ hnn 1 hlen, harr⟩

/-- C6, counterexample. The claim says the grid length is
`ceil((max over events of start+duration) / 30)`. For
`[{start:0, duration:120}, {start:30, duration:30}]` the maximal end is
`0 + 120 = 120` seconds (the first event), so the claim demands
`ceil(120/30) = 4` epochs; but `_stages_to_array` takes the end of the
**last event in sorted-by-start order** (`30 + 30 = 60` s) and allocates
only 2 epochs. -/
theorem c6_counterexample :
    (stagesToArray [⟨0, 120, 0⟩, ⟨30, 30, 2⟩]).length = 2 ∧
    (⌈(((0 : ℚ) + 120)) / EPOCH_DURATION⌉).toNat = 4 ∧
    (⌈(((30 : ℚ) + 30)) / EPOCH_DURATION⌉).toNat = 2 := by
  refine ⟨?_, ?_, ?_⟩
  · have harr : stagesToArray [⟨0, 120, 0⟩, ⟨30, 30, 2⟩] = [0, 2] := by
      norm_num [stagesToArray, sortStages, insertEvent, writeStage, startEpoch, endEpoch,
        numStageEpochs, pyInt, EPOCH_DURATION, Int.ceil_eq_iff, List.replicate,
        List.range_succ]
    simp [harr]
  · have h : (⌈(((0 : ℚ) + 120)) / EPOCH_DURATION⌉ : ℤ) = 4 := by
      norm_num [EPOCH_DURATION, Int.ceil_eq_iff]
    rw [h]; rfl
  · have h : (⌈(((30 : ℚ) + 30)) / EPOCH_DURATION⌉ : ℤ) = 2 := by
      norm_num [EPOCH_DURATION, Int.ceil_eq_iff]
    rw [h]; rfl

/-- C6 (amended): for a non-empty event list with non-negative starts and
durations, the grid length is `ceil((start+duration)/30)` for **an event of
maximal start offset** (the last one in stable sorted order) — not for the
event of maximal end. -/
theorem stagesToArray_length_lastStart (stages : List StageEvent) (hne : stages ≠ [])
    (hnn : ∀ e ∈ stages, 0 ≤ e.start ∧ 0 ≤ e.duration) :
    ∃ e ∈ stages, (∀ f ∈ stages, f.start ≤ e.start) ∧
      (stagesToArray stages).length =
        (⌈(e.start + e.duration) / EPOCH_DURATION⌉).toNat := by
  have hsne : sortStages stages ≠ [] := by
    intro h
    apply hne
    have hp := sortStages_perm stages
    rw [h] at hp
    exact hp.nil_eq.symm
  refine ⟨(sortStages stages).getLastD defaultEvent, ?_, ?_, ?_⟩
  · exact (sortStages_perm stages).mem_iff.mp (getLastD_mem _ _ hsne)
  · intro f hf
    exact pairwise_le_getLastD (sortStages stages) defaultEvent
      (sortStages_pairwise stages) f ((sortStages_perm stages).mem_iff.mpr hf)
  · rw [stagesToArray, if_neg (by simpa [List.isEmpty_iff] using hne),
      foldl_writeStage_length, List.length_replicate]

/-- C6, witness: a single event `start = 0, duration = 30` yields a grid of
length `ceil(30/30) = 1`, and the maximal-start event is that event. -/
theorem c6_witness :
    ([(⟨0, 30, 0⟩ : StageEvent)] ≠ []) ∧
    (∃ e ∈ [(⟨0, 30, 0⟩ : StageEvent)], (∀ f ∈ [(⟨0, 30, 0⟩ : StageEvent)], f.start ≤ e.start) ∧
      (stagesToArray [⟨0, 30, 0⟩]).length =
        (⌈(e.start + e.duration) / EPOCH_DURATION⌉).toNat) ∧
    (stagesToArray [⟨0, 30, 0⟩]).length = 1 := by
  have hnn : ∀ e ∈ [(⟨0, 30, 0⟩ : StageEvent)], 0 ≤ e.start ∧ 0 ≤ e.duration := by
    intro e he
    rcases List.mem_cons.mp he with h | h
    · subst h; exact ⟨by norm_num, by norm_num⟩
    · cases h
  refine ⟨by simp, stagesToArray_length_lastStart _ (by simp) hnn, ?_⟩
  have harr : stagesToArray [⟨0, 30, 0⟩] = [0] := by
    norm_num [stagesToArray, sortStages, insertEvent, writeStage, startEpoch, endEpoch,
      numStageEpochs, pyInt, EPOCH_DURATION, Int.ceil_eq_iff, List.replicate,
      List.range_succ]
  simp [harr]

/-- C2 (confirmed): `synchronize` leaves the stage array unchanged exactly
when the signal/annotation duration difference is at most two epochs
(`|D/30 − len| ≤ 2`, the code's `|D − 30·len| ≤ 60` seconds test divided by
30); otherwise it returns an array of exactly `int(D/30)` epochs, truncating
a longer array and right-padding a shorter one with unknown (`-1`). It is a
total function — a mismatch never raises. -/
theorem synchronize_spec (arr : List ℤ) (d : ℚ) (hd : 0 ≤ d) :
    (|d / EPOCH_DURATION - arr.length| ≤ 2 → synchronize arr d = arr) ∧
    (2 < |d / EPOCH_DURATION - arr.length| →
      (synchronize arr d).length = (signalEpochs d).toNat ∧
      ((signalEpochs d).toNat < arr.length →
        synchronize arr d = arr.take (signalEpochs d).toNat) ∧
      (arr.length < (signalEpochs d).toNat →
        synchronize arr d = arr ++ List.replicate ((signalEpochs d).toNat - arr.length) (-1))) := by
  have habs : |d - EPOCH_DURATION * arr.length| =
      EPOCH_DURATION * |d / EPOCH_DURATION - arr.length| := by
    rw [EPOCH_DURATION]
    rw [show d - 30 * (arr.length : ℚ) = 30 * (d / 30 - arr.length) by ring]
    rw [abs_mul]
    norm_num
  constructor
  · intro hle
    have hna : needsAdjustment arr d = false := by
      rw [needsAdjustment, decide_eq_false_iff_not, not_lt, habs]
      rw [EPOCH_DURATION] at hle ⊢
      linarith
    rw [synchronize, hna]
    simp
  · intro hgt
    have hna : needsAdjustment arr d = true := by
      rw [needsAdjustment, decide_eq_true_eq, habs]
      rw [EPOCH_DURATION] at hgt ⊢
      linarith
    rw [synchronize, hna, if_pos rfl]
    rw [adjustSynchronization]
    by_cases h1 : (signalEpochs d).toNat = arr.length
    · rw [if_pos h1]
      exact ⟨h1.symm, fun hlt => absurd h1 (Nat.ne_of_lt hlt), fun hlt => absurd h1 (Nat.ne_of_gt hlt)⟩
    · rw [if_neg h1]
      by_cases h2 : (signalEpochs d).toNat < arr.length
      · rw [if_pos h2]
        exact ⟨by rw [List.length_take]; omega, fun _ => rfl, fun hlt => absurd h2 (by omega)⟩
      · rw [if_neg h2]
        have h3 : arr.length < (signalEpochs d).toNat := by omega
        exact ⟨by rw [List.length_append, List.length_replicate]; omega,
          fun hlt => absurd hlt (by omega), fun _ => rfl⟩

/-- C2, witness: Example D of the spec. Signal duration 7200 s (240 epochs),
annotation length 100: the difference (140 epochs) exceeds the tolerance, so
the array is padded with 140 unknown epochs to length 240. -/
theorem c2_witness :
    (0 : ℚ) ≤ 7200 ∧
    2 < |(7200 : ℚ) / EPOCH_DURATION - (List.replicate 100 (7 : ℤ)).length| ∧
    synchronize (List.replicate 100 (7 : ℤ)) 7200 =
      List.replicate 100 (7 : ℤ) ++ List.replicate 140 (-1) ∧
    (synchronize (List.replicate 100 (7 : ℤ)) 7200).length = 240 := by
  have hd : (0 : ℚ) ≤ 7200 := by norm_num
  have hgt : 2 < |(7200 : ℚ) / EPOCH_DURATION - (List.replicate 100 (7 : ℤ)).length| := by
    rw [List.length_replicate, EPOCH_DURATION]
    norm_num
  have hse : (signalEpochs 7200).toNat = 240 := by
    have h : signalEpochs 7200 = 240 := by
      norm_num [signalEpochs, pyInt, EPOCH_DURATION]
    rw [h]; rfl
  have h := (synchronize_spec (List.replicate 100 (7 : ℤ)) 7200 hd).2 hgt
  have hpad := h.2.2 (by rw [hse, List.length_replicate]; norm_num)
  refine ⟨hd, hgt, ?_, ?_⟩
  · rw [hpad, hse, List.length_replicate]
  · rw [h.1, hse]

/-! ## Claims about the channel mapper -/

/-- C3, counterexample. Two input lists with the same label set (they are
permutations of each other) produce different detected maps: the dict
comprehension `{ch.lower(): ch for ch in available_channels}` is last-wins
on lowercase collisions, so with both `"EKG"` and `"ekg"` present the
matched raw label depends on the input order. -/
theorem c3_counterexample :
    List.Perm ["EKG", "ekg"] ["ekg", "EKG"] ∧
    detect_channels_from_list ⟨[("EKG", ["EKG"])], []⟩ ["EKG", "ekg"] =
      [("EKG", "ekg")] ∧
    detect_channels_from_list ⟨[("EKG", ["EKG"])], []⟩ ["ekg", "EKG"] =
      [("EKG", "EKG")] ∧
    detect_channels_from_list ⟨[("EKG", ["EKG"])], []⟩ ["EKG", "ekg"] ≠
      detect_channels_from_list ⟨[("EKG", ["EKG"])], []⟩ ["ekg", "EKG"] := by
  refine ⟨?_, by decide, by decide, by decide⟩
  decide

/-- C3 (amended): `detect_channels_from_list` is a pure function of the
raw-label **set** provided lowercasing is injective on the input labels
(no two distinct labels share a lowercase form — the situation in every
real recording): any two label lists with the same members give identical
detected maps. Without that proviso the order can matter
(see the counterexample). -/
theorem detect_order_independent (cfg : MapperConfig) (l1 l2 : List String)
    (hinj : ∀ a ∈ l1, ∀ b ∈ l1, strLower a = strLower b → a = b)
    (hmem : ∀ x : String, x ∈ l1 ↔ x ∈ l2) :
    detect_channels_from_list cfg l1 = detect_channels_from_list cfg l2 := by
  have havail := availLookup_congr l1 l2 hinj hmem
  have hone := detectOne_congr l1 l2 havail
  rw [detect_channels_from_list, detect_channels_from_list]
  exact List.filterMap_congr (fun p _ => by rw [hone])

/-- C3, witness: for labels with distinct lowercase forms, the two orderings
of `\x7b"C3-M2", "EKG"\x7d` resolve identically. -/
theorem c3_witness :
    (∀ a ∈ ["C3-M2", "EKG"], ∀ b ∈ ["C3-M2", "EKG"], strLower a = strLower b → a = b) ∧
    (∀ x : String, x ∈ ["C3-M2", "EKG"] ↔ x ∈ ["EKG", "C3-M2"]) ∧
    detect_channels_from_list ⟨[("EKG", ["EKG"])], []⟩ ["C3-M2", "EKG"] =
      detect_channels_from_list ⟨[("EKG", ["EKG"])], []⟩ ["EKG", "C3-M2"] ∧
    detect_channels_from_list ⟨[("EKG", ["EKG"])], []⟩ ["C3-M2", "EKG"] =
      [("EKG", "EKG")] := by
  have hinj : ∀ a ∈ ["C3-M2", "EKG"], ∀ b ∈ ["C3-M2", "EKG"],
      strLower a = strLower b → a = b := by decide
  have hmem : ∀ x : String, x ∈ ["C3-M2", "EKG"] ↔ x ∈ ["EKG", "C3-M2"] := by
    intro x
    constructor <;> (intro h; rcases List.mem_cons.mp h with h1 | h1)
    · subst h1; simp
    · rcases List.mem_cons.mp h1 with h2 | h2
      · subst h2; simp
      · cases h2
    · subst h1; simp
    · rcases List.mem_cons.mp h1 with h2 | h2
      · subst h2; simp
      · cases h2
  exact ⟨hinj, hmem, detect_order_independent _ _ _ hinj hmem, by decide⟩

/-- C7 (confirmed): for any configuration with unique canonical names and any
label list without empty labels, the detected entry for a canonical channel
`std` with alias row `(std, alts)` is governed by the first alias of the
configured search order whose lowercase form equals some raw label's
lowercase form (exact case-insensitive token match): if no alias of the
search order matches, `std` is absent from the result (no error — the lookup
is simply `none`); if the order splits as `pre ++ a :: post` with no alias of
`pre` matching and `a` matching, the result maps `std` to a raw label whose
lowercase form equals `a`'s. -/
theorem detect_first_alias (cfg : MapperConfig) (labels : List String)
    (std : String) (alts : List String)
    (hmem : (std, alts) ∈ cfg.channel_alternatives)
    (hnd : (cfg.channel_alternatives.map Prod.fst).Nodup)
    (hne : ∀ ch ∈ labels, ch ≠ "") :
    ((∀ b ∈ searchOrder cfg std alts, ∀ ch ∈ labels, strLower ch ≠ strLower b) →
      (detect_channels_from_list cfg labels).lookup std = none) ∧
    (∀ pre a post, searchOrder cfg std alts = pre ++ a :: post →
      (∀ b ∈ pre, ∀ ch ∈ labels, strLower ch ≠ strLower b) →
      (∃ ch ∈ labels, strLower ch = strLower a) →
      ∃ ch ∈ labels, strLower ch = strLower a ∧
        (detect_channels_from_list cfg labels).lookup std = some ch) := by
  constructor
  · intro hno
    rw [lookup_detect cfg labels std alts hmem hnd,
      detectOne_none_of_no_match labels _ hno]
    rfl
  · intro pre a post horder hpre hex
    obtain ⟨ch, hc1, hc2, hc3⟩ := detectOne_first_match labels pre a post hpre hex
    refine ⟨ch, hc1, hc2, ?_⟩
    rw [lookup_detect cfg labels std alts hmem hnd, horder, hc3]
    have hch0 : ch ≠ "" := hne ch hc1
    simp [hch0]

/-- C7, witness: with alias row `("EKG", ["ECG", "EKG"])` and labels
`["ekg"]`, the first alias `"ECG"` does not match, the second alias `"EKG"`
matches the label `"ekg"` case-insensitively, and the detected map takes
`"EKG"` to `"ekg"`. -/
theorem c7_witness :
    (("EKG", ["ECG", "EKG"]) ∈
      (⟨[("EKG", ["ECG", "EKG"])], []⟩ : MapperConfig).channel_alternatives) ∧
    (∃ ch ∈ ["ekg"], strLower ch = strLower "EKG" ∧
      (detect_channels_from_list ⟨[("EKG", ["ECG", "EKG"])], []⟩ ["ekg"]).lookup "EKG" =
        some ch) ∧
    detect_channels_from_list ⟨[("EKG", ["ECG", "EKG"])], []⟩ ["ekg"] =
      [("EKG", "ekg")] := by
  have hmem : (("EKG", ["ECG", "EKG"]) ∈
      (⟨[("EKG", ["ECG", "EKG"])], []⟩ : MapperConfig).channel_alternatives) := by decide
  have hnd : (((⟨[("EKG", ["ECG", "EKG"])], []⟩ :
      MapperConfig).channel_alternatives).map Prod.fst).Nodup := by decide
  have hne : ∀ ch ∈ ["ekg"], ch ≠ "" := by decide
  have horder : searchOrder ⟨[("EKG", ["ECG", "EKG"])], []⟩ "EKG" ["ECG", "EKG"] =
      ["ECG"] ++ "EKG" :: [] := by decide
  have hpre : ∀ b ∈ ["ECG"], ∀ ch ∈ ["ekg"], strLower ch ≠ strLower b := by decide
  have hex : ∃ ch ∈ ["ekg"], strLower ch = strLower "EKG" := ⟨"ekg", by decide, by decide⟩
  exact ⟨hmem,
    (detect_first_alias ⟨[("EKG", ["ECG", "EKG"])], []⟩ ["ekg"] "EKG" ["ECG", "EKG"]
      hmem hnd hne).2 ["ECG"] "EKG" [] horder hpre hex,
    by decide⟩

/-! ## Claims about group-cap enforcement -/

/-- C4 (confirmed): for every cap/priority configuration, modality grouping
and channel mapping, and for each output group `g`, the mapping returned by
`_apply_sleepfm_limits` contains at most `max_channels` channels of group
`g`; and when the group's channel count exceeds its cap, the retained
channels of group `g` are exactly the first `max_channels` entries of the
sequence formed by the `priority_order` channels that are present (in
priority order) followed by the remaining present channels (in mapping
order). The enforcement is a total function: excess channels are dropped,
never an error. -/
theorem sleepfm_group_cap (cfg : SGroup → GroupSpec) (mg : ModalityGroups)
    (mapping : List (String × String)) (g : SGroup) :
    (((applySleepfmLimits cfg mg mapping).map Prod.fst).filter
      (fun s => sleepfmGroupOf mg s == some g)).length ≤ (cfg g).max_channels ∧
    ((cfg g).max_channels < (groupChannels mg mapping g).length →
      ((applySleepfmLimits cfg mg mapping).map Prod.fst).filter
        (fun s => sleepfmGroupOf mg s == some g) =
      (prioritize (cfg g).priority_order (groupChannels mg mapping g)).take
        (cfg g).max_channels) := by
  rw [applySleepfm_filter_eq]
  constructor
  · rw [selectGroup]
    by_cases h : (cfg g).max_channels < (groupChannels mg mapping g).length
    · rw [if_pos h, List.length_take]
      omega
    · rw [if_neg h]
      omega
  · intro h
    rw [selectGroup, if_pos h]

/-- C4, witness: with cap 2 and priority `["A", "B"]` on group BAS, a
mapping with three BAS channels `C, A, B` is truncated to the top-2 priority
channels `A, B`; the EKG/EMG/RESP groups are empty and unaffected. -/
theorem c4_witness :
    (2 < (groupChannels ⟨["A", "B", "C"], [], [], [], []⟩
      [("C", "c"), ("A", "a"), ("B", "b")] SGroup.BAS).length) ∧
    ((applySleepfmLimits
        (fun _ => ⟨2, ["A", "B"]⟩)
        ⟨["A", "B", "C"], [], [], [], []⟩
        [("C", "c"), ("A", "a"), ("B", "b")]).map Prod.fst).filter
      (fun s => sleepfmGroupOf ⟨["A", "B", "C"], [], [], [], []⟩ s == some SGroup.BAS) =
      (prioritize ["A", "B"] (groupChannels ⟨["A", "B", "C"], [], [], [], []⟩
        [("C", "c"), ("A", "a"), ("B", "b")] SGroup.BAS)).take 2 ∧
    applySleepfmLimits (fun _ => ⟨2, ["A", "B"]⟩) ⟨["A", "B", "C"], [], [], [], []⟩
      [("C", "c"), ("A", "a"), ("B", "b")] = [("A", "a"), ("B", "b")] := by
  refine ⟨by decide, ?_, by decide⟩
  exact (sleepfm_group_cap (fun _ => ⟨2, ["A", "B"]⟩) ⟨["A", "B", "C"], [], [], [], []⟩
    [("C", "c"), ("A", "a"), ("B", "b")] SGroup.BAS).2 (by decide)

/-- C10 (confirmed): a canonical channel that belongs to none of the five
modality families of the configuration (so it lands in no SleepFM group) is
absent from the mapping returned by `_apply_sleepfm_limits`, regardless of
any cap being reached; and every channel of the returned mapping is
assigned to one of the four output groups BAS, EKG, EMG, RESP. -/
theorem unassigned_channel_dropped (mc : ModalityConfig) (cfg : SGroup → GroupSpec)
    (mapping : List (String × String)) (std : String)
    (hnofam : ∀ f ∈ ["EEG", "EOG", "ECG", "EMG", "RESP"], familyOf mc std ≠ some f) :
    std ∉ (applySleepfmLimits cfg (mgOf mc mapping) mapping).map Prod.fst ∧
    ∀ p ∈ applySleepfmLimits cfg (mgOf mc mapping) mapping,
      ∃ g : SGroup, sleepfmGroupOf (mgOf mc mapping) p.1 = some g := by
  have hgrp : sleepfmGroupOf (mgOf mc mapping) std = none := by
    have hkey : ∀ f : String, std ∉ groupedKeys mc mapping f ∨ familyOf mc std = some f := by
      intro f
      by_cases h : std ∈ groupedKeys mc mapping f
      · exact Or.inr (by simpa using (List.mem_filter.mp h).2)
      · exact Or.inl h
    have hnot : ∀ f ∈ ["EEG", "EOG", "ECG", "EMG", "RESP"],
        std ∉ groupedKeys mc mapping f := by
      intro f hf
      rcases hkey f with h | h
      · exact h
      · exact absurd h (hnofam f hf)
    rw [sleepfmGroupOf, mgOf]
    rw [if_neg, if_neg, if_neg, if_neg]
    · exact hnot "RESP" (by simp)
    · exact hnot "EMG" (by simp)
    · exact hnot "ECG" (by simp)
    · rintro (h | h)
      · exact hnot "EEG" (by simp) h
      · exact hnot "EOG" (by simp) h
  constructor
  · intro hmem
    obtain ⟨g, hg⟩ := mem_applySleepfm_names cfg (mgOf mc mapping) mapping std hmem
    rw [hgrp] at hg
    cases hg
  · intro p hp
    exact mem_applySleepfm_names cfg (mgOf mc mapping) mapping p.1
      (List.mem_map.mpr ⟨p, hp, rfl⟩)

/-- C10, witness: the canonical channel `"POS"` is in no configured family
(the configuration knows only the EEG family `\x7b"C3-M2"\x7d`), so it is dropped
from the returned mapping even though the BAS group (one channel) is far
below any cap — the surviving mapping is exactly the EEG channel. -/
theorem c10_witness :
    (∀ f ∈ ["EEG", "EOG", "ECG", "EMG", "RESP"],
      familyOf ⟨[("EEG", ["C3-M2"])]⟩ "POS" ≠ some f) ∧
    "POS" ∉ (applySleepfmLimits (fun _ => ⟨10, []⟩)
      (mgOf ⟨[("EEG", ["C3-M2"])]⟩ [("POS", "Position"), ("C3-M2", "C3M2")])
      [("POS", "Position"), ("C3-M2", "C3M2")]).map Prod.fst ∧
    applySleepfmLimits (fun _ => ⟨10, []⟩)
      (mgOf ⟨[("EEG", ["C3-M2"])]⟩ [("POS", "Position"), ("C3-M2", "C3M2")])
      [("POS", "Position"), ("C3-M2", "C3M2")] = [("C3-M2", "C3M2")] := by
  have hnofam : ∀ f ∈ ["EEG", "EOG", "ECG", "EMG", "RESP"],
      familyOf ⟨[("EEG", ["C3-M2"])]⟩ "POS" ≠ some f := by decide
  exact ⟨hnofam,
    (unassigned_channel_dropped ⟨[("EEG", ["C3-M2"])]⟩ (fun _ => ⟨10, []⟩)
      [("POS", "Position"), ("C3-M2", "C3M2")] "POS" hnofam).1,
    by decide⟩

/-! ## Claims about signal conditioning -/

/-- C8 (confirmed): for every filter kernel, input signal, positive sampling
rate and cutoff pair, whenever the normalized cutoffs — clipped into
`[0.001, 0.999]` — satisfy `low ≥ high`, `_bandpass_filter` returns the
input signal unchanged (the Butterworth design is never invoked and nothing
is raised; the bypass is a soft failure logged by the caller). -/
theorem bandpass_bypass (design : ℕ → ℚ → ℚ → List FVal → List FVal)
    (sig : List FVal) (sr low high : ℚ) (order : ℕ) (hsr : 0 < sr)
    (hclip : clipNorm (high / (sr / 2)) ≤ clipNorm (low / (sr / 2))) :
    bandpassFilter design sig sr low high order = sig := by
  rw [bandpassFilter]
  exact if_pos hclip

/-- C8, witness: the EMG band `[10, 100]` Hz at a 1 Hz sampling rate: both
normalized cutoffs clip to `0.999`, so `low ≥ high` after clipping and the
signal passes through unfiltered — even with a kernel that would erase the
signal. -/
theorem c8_witness :
    (0 : ℚ) < 1 ∧
    clipNorm ((100 : ℚ) / (1 / 2)) ≤ clipNorm ((10 : ℚ) / (1 / 2)) ∧
    bandpassFilter (fun _ _ _ _ => []) [FVal.fin 5] 1 10 100 4 = [FVal.fin 5] := by
  have hsr : (0 : ℚ) < 1 := by norm_num
  have hclip : clipNorm ((100 : ℚ) / (1 / 2)) ≤ clipNorm ((10 : ℚ) / (1 / 2)) := by
    rw [clipNorm, clipNorm]
    norm_num
  exact ⟨hsr, hclip,
    bandpass_bypass (fun _ _ _ _ => []) [FVal.fin 5] 1 10 100 4 hsr hclip⟩

/-- C5 (confirmed): when the population standard deviation of the signal is
zero, `nan` or infinite, `_normalize_signal` returns (the `nan_to_num`
cleanup of) the mean-centered signal and reports `std = 1` — in particular a
constant signal yields the identically-zero output; and for **every** input,
each output sample is the `nan_to_num` image of the corresponding normalized
sample (`nan → 0`, `+inf → 10`, `-inf → -10`, finite values unchanged), so
no `nan` or infinity survives and the function is total on non-empty
signals. -/
theorem normalize_degenerate (sig : List FVal) (hne : sig ≠ [])
    (hdeg : stdInvalid (fstd sig) = true) :
    (∃ out stats, normalizeSignal sig = some (out, stats) ∧
      stats.std = FVal.fin 1 ∧
      out = (sig.map (fun x => fsub x (fmean sig))).map nanToNum) ∧
    (∀ q : ℚ, (∀ v ∈ sig, v = FVal.fin q) →
      ∃ out stats, normalizeSignal sig = some (out, stats) ∧
        out = List.replicate sig.length (FVal.fin 0)) ∧
    (∀ sig2 out2 stats2, normalizeSignal sig2 = some (out2, stats2) →
      out2 = (rawNormalized sig2).map nanToNum ∧ ∀ v ∈ out2, fIsBad v = false) := by
  have hraw : rawNormalized sig = sig.map (fun x => fsub x (fmean sig)) := by
    rw [rawNormalized, if_pos hdeg]
  obtain ⟨stats, hnorm, hstd⟩ := normalizeSignal_parts sig hne
  refine ⟨⟨_, stats, hnorm, ?_, by rw [hraw]⟩, ?_, ?_⟩
  · rw [hstd, if_pos hdeg]
  · intro q hq
    refine ⟨_, stats, hnorm, ?_⟩
    have hcen : sig.map (fun x => fsub x (fmean sig)) =
        List.replicate sig.length (FVal.fin 0) := by
      apply map_eq_replicate_of_const
      intro v hv
      rw [hq v hv, fmean_const sig q hne hq, fsub_fin, sub_self]
    rw [hraw, hcen, List.map_replicate]
    rfl
  · intro sig2 out2 stats2 h2
    have hne2 : sig2 ≠ [] := by
      intro h0
      rw [(normalizeSignal_none_iff sig2).mpr h0] at h2
      cases h2
    obtain ⟨stats2q, hnorm2, _⟩ := normalizeSignal_parts sig2 hne2
    rw [hnorm2] at h2
    have hpair := Option.some.inj h2
    have hout : out2 = (rawNormalized sig2).map nanToNum :=
      (congrArg Prod.fst hpair).symm
    refine ⟨hout, ?_⟩
    intro v hv
    rw [hout] at hv
    obtain ⟨u, _, huv⟩ := List.mem_map.mp hv
    rw [← huv]
    exact fIsBad_nanToNum u

/-- C5, witness: the constant signal `[2, 2]` has std `0` (degenerate); the
normalized output is `[0, 0]` and the reported std is `1`. -/
theorem c5_witness :
    ([FVal.fin 2, FVal.fin 2] ≠ ([] : List FVal)) ∧
    stdInvalid (fstd [FVal.fin 2, FVal.fin 2]) = true ∧
    (∃ out stats, normalizeSignal [FVal.fin 2, FVal.fin 2] = some (out, stats) ∧
      out = List.replicate 2 (FVal.fin 0)) ∧
    (∃ out stats, normalizeSignal [FVal.fin 2, FVal.fin 2] = some (out, stats) ∧
      stats.std = FVal.fin 1) := by
  have hne : [FVal.fin 2, FVal.fin 2] ≠ ([] : List FVal) := by simp
  have hmean : fmean [FVal.fin 2, FVal.fin 2] = .fin 2 :=
    fmean_const _ 2 hne (by
      intro v hv
      rcases List.mem_cons.mp hv with h | h
      · exact h
      · rcases List.mem_cons.mp h with h2 | h2
        · exact h2
        · cases h2)
  have hdeg : stdInvalid (fstd [FVal.fin 2, FVal.fin 2]) = true := by
    have hvar : fstd [FVal.fin 2, FVal.fin 2] = .fin 0 := by
      rw [fstd, hmean]
      have hmap : ([FVal.fin 2, FVal.fin 2].map fun x =>
          fmul (fsub x (.fin 2)) (fsub x (.fin 2))) = [FVal.fin 0, FVal.fin 0] := by
        simp only [List.map_cons, List.map_nil, fsub_fin, sub_self]
        norm_num [fmul]
      rw [hmap]
      have hm0 : fmean [FVal.fin 0, FVal.fin 0] = .fin 0 :=
        fmean_const _ 0 (by simp) (by
          intro v hv
          rcases List.mem_cons.mp hv with h | h
          · exact h
          · rcases List.mem_cons.mp h with h2 | h2
            · exact h2
            · cases h2)
      rw [hm0, fsqrt]
      norm_num
    rw [hvar]
    simp [stdInvalid]
  have h := normalize_degenerate [FVal.fin 2, FVal.fin 2] hne hdeg
  refine ⟨hne, hdeg, ?_, ?_⟩
  · have hconst := h.2.1 2 (by
      intro v hv
      rcases List.mem_cons.mp hv with h1 | h1
      · exact h1
      · rcases List.mem_cons.mp h1 with h2 | h2
        · exact h2
        · cases h2)
    simpa using hconst
  · obtain ⟨out, stats, hn, hstd, _⟩ := h.1
    exact ⟨out, stats, hn, hstd⟩

/-- Membership in the container comes from a successful `_process_channel`
call on that channel's samples. -/
theorem mem_buildContainer (filt : List FVal → List FVal) (quant : FVal → FVal)
    (rcd : RawRecording) (mapping : List (String × String)) (c : String × List FVal)
    (h : c ∈ buildContainer filt quant rcd mapping) :
    ∃ p ∈ mapping, ∃ stats,
      processChannel filt quant (rcd.data p.2) rcd.sfreq = some (c.2, stats) := by
  rw [buildContainer] at h
  obtain ⟨p, hp, hsome⟩ := List.mem_filterMap.mp h
  obtain ⟨q, hq, hc⟩ := Option.map_eq_some'.mp hsome
  cases q with
  | mk q1 q2 =>
    refine ⟨p, hp, q2, ?_⟩
    have h2 : c.2 = q1 := by rw [← hc]
    rw [h2]
    exact hq

/-- C9 (confirmed): for every recording handle (one global sampling rate,
rectangular data), length-preserving filter kernel and quantizer, all
channel arrays of the assembled container share one length, and that common
length is within one sample of `round(duration_seconds * 128)` where
`duration_seconds = n_times / sfreq`: resampling produces exactly
`int(duration * 128)` samples, and at native rate 128 the raw length is kept. -/
theorem container_uniform_length (filt : List FVal → List FVal) (quant : FVal → FVal)
    (rcd : RawRecording) (mapping : List (String × String))
    (hfilt : ∀ l, (filt l).length = l.length)
    (hdata : ∀ nm, (rcd.data nm).length = rcd.nTimes)
    (hsr : 0 < rcd.sfreq) :
    (∀ c1 ∈ buildContainer filt quant rcd mapping,
      ∀ c2 ∈ buildContainer filt quant rcd mapping, c1.2.length = c2.2.length) ∧
    (∀ c ∈ buildContainer filt quant rcd mapping,
      |(c.2.length : ℤ) - round ((rcd.nTimes : ℚ) / rcd.sfreq * TARGET_SR)| ≤ 1) := by
  have hlen : ∀ c ∈ buildContainer filt quant rcd mapping,
      c.2.length = if rcd.sfreq = TARGET_SR then rcd.nTimes
        else (pyInt ((rcd.nTimes : ℚ) / rcd.sfreq * TARGET_SR)).toNat := by
    intro c hc
    obtain ⟨p, _, stats, hproc⟩ := mem_buildContainer filt quant rcd mapping c hc
    have hl := processChannel_length filt quant (rcd.data p.2) c.2 rcd.sfreq stats hfilt hproc
    rw [hdata p.2] at hl
    exact hl
  refine ⟨fun c1 h1 c2 h2 => by rw [hlen c1 h1, hlen c2 h2], ?_⟩
  intro c hc
  rw [hlen c hc]
  by_cases hs : rcd.sfreq = TARGET_SR
  · rw [if_pos hs, hs]
    have hx : (rcd.nTimes : ℚ) / TARGET_SR * TARGET_SR = (rcd.nTimes : ℚ) := by
      rw [TARGET_SR]
      field_simp
    rw [hx, round_natCast]
    simp
  · rw [if_neg hs]
    have hx0 : 0 ≤ (rcd.nTimes : ℚ) / rcd.sfreq * TARGET_SR := by
      apply mul_nonneg
      · exact div_nonneg (Nat.cast_nonneg _) (le_of_lt hsr)
      · rw [TARGET_SR]
        norm_num
    have hpy : pyInt ((rcd.nTimes : ℚ) / rcd.sfreq * TARGET_SR) =
        ⌊(rcd.nTimes : ℚ) / rcd.sfreq * TARGET_SR⌋ := by
      rw [pyInt, if_pos hx0]
    have hfl0 : 0 ≤ ⌊(rcd.nTimes : ℚ) / rcd.sfreq * TARGET_SR⌋ :=
      Int.floor_nonneg.mpr hx0
    have htn : (((pyInt ((rcd.nTimes : ℚ) / rcd.sfreq * TARGET_SR)).toNat : ℤ)) =
        ⌊(rcd.nTimes : ℚ) / rcd.sfreq * TARGET_SR⌋ := by
      rw [hpy, Int.toNat_of_nonneg hfl0]
    rw [htn]
    have hround : round ((rcd.nTimes : ℚ) / rcd.sfreq * TARGET_SR) =
        ⌊(rcd.nTimes : ℚ) / rcd.sfreq * TARGET_SR + 1/2⌋ := round_eq _
    have h1 : ⌊(rcd.nTimes : ℚ) / rcd.sfreq * TARGET_SR⌋ ≤
        ⌊(rcd.nTimes : ℚ) / rcd.sfreq * TARGET_SR + 1/2⌋ :=
      Int.floor_le_floor (by linarith)
    have h2 : ⌊(rcd.nTimes : ℚ) / rcd.sfreq * TARGET_SR + 1/2⌋ ≤
        ⌊(rcd.nTimes : ℚ) / rcd.sfreq * TARGET_SR⌋ + 1 := by
      have h3 : ⌊(rcd.nTimes : ℚ) / rcd.sfreq * TARGET_SR + 1/2⌋ ≤
          ⌊(rcd.nTimes : ℚ) / rcd.sfreq * TARGET_SR + 1⌋ :=
        Int.floor_le_floor (by linarith)
      rwa [Int.floor_add_one] at h3
    rw [hround, abs_le]
    omega

/-- C9, witness: a recording at 1 Hz with 3 samples per channel and the
identity kernel/quantizer: every surviving channel has the same length,
within one sample of `round(3/1 * 128) = 384`. -/
theorem c9_witness :
    (∀ l : List FVal, (id l).length = l.length) ∧
    ((0 : ℚ) < 1) ∧
    ((∀ c1 ∈ buildContainer id id
        ⟨1, 3, fun _ => [FVal.fin 1, FVal.fin 2, FVal.fin 3]⟩ [("C3-M2", "C3")],
      ∀ c2 ∈ buildContainer id id
        ⟨1, 3, fun _ => [FVal.fin 1, FVal.fin 2, FVal.fin 3]⟩ [("C3-M2", "C3")],
        c1.2.length = c2.2.length) ∧
    (∀ c ∈ buildContainer id id
        ⟨1, 3, fun _ => [FVal.fin 1, FVal.fin 2, FVal.fin 3]⟩ [("C3-M2", "C3")],
      |(c.2.length : ℤ) - round (((3 : ℕ) : ℚ) / 1 * TARGET_SR)| ≤ 1)) := by
  refine ⟨fun l => rfl, by norm_num, ?_⟩
  exact container_uniform_length id id
    ⟨1, 3, fun _ => [FVal.fin 1, FVal.fin 2, FVal.fin 3]⟩ [("C3-M2", "C3")]
    (fun l => rfl) (fun nm => rfl) (by norm_num)

end NSRR
